import Mathlib

/-!
Verification of `kmer-abund-hist.py` against its natural-language specification.

The script aggregates per-hash k-mer abundance counts over signatures loaded
from one or more sources, optionally filters signatures by md5/name substring
predicates, resolves a value range, and bins the aggregate abundances with
`numpy.histogram`, finally emitting the histogram (and optionally CSV files).

Shallow embedding notes:
  * Signatures are records of an md5 string, a name string (both as `List Char`)
    and an association list from hash value to abundance (Python dict with
    unique keys, insertion-ordered).
  * Python's substring test `sub in s` is embedded as `containsSub`.
  * The per-file loop of `abundhist` (source lines 69-80) is embedded as
    `loadLoop`; note that the Python loop rebinds `siglist` on every
    iteration, and the code after the loop uses only the final binding.
  * `collections.defaultdict(int)` accumulation (lines 88-91) is embedded as
    the association-list fold `aggregate`.
  * Range resolution (lines 95-100) is `resolveRange`; Python's
    `max(all_counts)` on an empty list raises (the spec calls this
    `EmptyDataError`), and is evaluated before the `--max` override is applied.
  * `numpy.histogram(values, range=(mn, mx), bins=nb)` with integer data is
    embedded with exact rational arithmetic: the `nb + 1` equally spaced bin
    edges over `[mn, mx]` (numpy expands a degenerate range `mn = mx` to
    `[mn - 1/2, mn + 1/2]`) are represented as the integer numerators
    `edgeNum` over the common positive denominator `edgeDen`.  A value is kept
    iff it lies between the first and last edge, and a kept value `v` is
    assigned the bin `floor((v - first) * nb / (last - first))`, with index
    `nb` clamped to `nb - 1` (numpy's last-bin-closed rule).  numpy raises
    `ValueError` when `bins < 1` (checked first) or `max < min`; the spec's
    taxonomy calls both `InvalidRangeError`.
  * `bin_edges.astype(int)` truncates toward zero; this is `tdiv` applied to
    the exact rational edges.
-/

namespace KmerAbundHist

/-- One sourmash signature, as used by the script: an md5 digest string, a
name string, and the minhash hash-to-abundance mapping (a dict, embedded as
an association list with unique keys). -/
structure Sig where
  md5 : List Char
  name : List Char
  hashes : List (Nat × Nat)
deriving Repr, DecidableEq

/-- Python `sub == s[:len(sub)]`: does `s` start with `sub`? -/
def startsWithL : List Char → List Char → Bool
  | [], _ => true
  | _ :: _, [] => false
  | a :: as, b :: bs => a == b && startsWithL as bs

/-- Python's substring containment `sub in s` for strings. -/
def containsSub (sub : List Char) : List Char → Bool
  | [] => startsWithL sub []
  | b :: bs => startsWithL sub (b :: bs) || containsSub sub bs

/-- Source lines 77-80: the md5 filter is applied first (when active), then
the name filter (when active), each as a Python list comprehension. -/
def selectSigs (md5f namef : Option (List Char)) (sigs : List Sig) : List Sig :=
  let s1 := match md5f with
    | none => sigs
    | some m => sigs.filter (fun ss => containsSub m ss.md5)
  match namef with
    | none => s1
    | some nm => s1.filter (fun ss => containsSub nm ss.name)

/-- Source lines 67-80: the loop over the positional signature sources.  The
accumulator carries `total_loaded` and the current binding of `siglist`;
`siglist` is rebound (not extended) on every iteration, so after the loop it
holds only the last source's filtered signatures.  The initial `[]` stands
for `siglist` being unbound before the loop (the script requires at least one
source, so the initial value is never the final one). -/
def loadLoop (md5f namef : Option (List Char)) (sources : List (List Sig)) :
    Nat × List Sig :=
  sources.foldl
    (fun acc src => (acc.1 + src.length, selectSigs md5f namef src)) (0, [])

/-- `counts_d[h] += a` for a `collections.defaultdict(int)` embedded as an
insertion-ordered association list: bump an existing entry or append a new
one at the end. -/
def bump : List (Nat × Nat) → Nat → Nat → List (Nat × Nat)
  | [], h, a => [(h, a)]
  | (k, v) :: rest, h, a =>
      if k = h then (k, v + a) :: rest else (k, v) :: bump rest h a

/-- Source lines 88-91: fold every `(hashval, abund)` pair of every signature
into the defaultdict. -/
def aggregate (sigs : List Sig) : List (Nat × Nat) :=
  sigs.foldl (fun d s => s.hashes.foldl (fun d p => bump d p.1 p.2) d) []

/-- The aggregate abundance map actually computed by `abundhist` for the given
filter options and positional sources (lines 67-91): the defaultdict is built
from the final binding of `siglist` only. -/
def abundhistAgg (md5f namef : Option (List Char))
    (sources : List (List Sig)) : List (Nat × Nat) :=
  aggregate (loadLoop md5f namef sources).2

/-- The error taxonomy of the spec: `emptyData` models the `ValueError`
raised by Python's `max()` on an empty sequence, `invalidRange` models the
`ValueError` raised by `numpy.histogram` for a non-positive bin count or an
inverted range. -/
inductive AbundError
  | emptyData
  | invalidRange
deriving Repr, DecidableEq

/-- Source lines 93-100: `min_range` defaults to 1 and is overridden by
`--min`; `max_range = max(all_counts)` is evaluated unconditionally (raising
on an empty list) and only afterwards overridden by `--max`. -/
def resolveRange (values : List Nat) (omin omax : Option Int) :
    Except AbundError (Int × Int) :=
  let mn : Int := omin.getD 1
  match values.max? with
  | none => .error .emptyData
  | some m => .ok (mn, omax.getD (m : Int))

/-- Source lines 102-104: clamp the requested bin count to the integer width
of the range. -/
def clampBins (mn mx b : Int) : Int :=
  if mx - mn + 1 < b then mx - mn + 1 else b

/-- Numerator of the exact `i`-th bin edge of `numpy.histogram` over the
denominator `edgeDen`: edge `i` is `mn + i * (mx - mn) / n`, except that a
degenerate range `mn = mx` is expanded by numpy to `[mn - 1/2, mn + 1/2]`
(so edge `i` is `mn - 1/2 + i / n` there). -/
def edgeNum (mn mx : Int) (n i : Nat) : Int :=
  if mn = mx then n * (2 * mn - 1) + 2 * i else mn * n + i * (mx - mn)

/-- Common positive denominator of the exact bin edges. -/
def edgeDen (mn mx : Int) (n : Nat) : Int :=
  if mn = mx then 2 * n else n

/-- numpy keeps exactly the values lying between the first and the last bin
edge (inclusive on both sides). -/
def keepVal (mn mx : Int) (n : Nat) (v : Int) : Bool :=
  edgeNum mn mx n 0 ≤ v * edgeDen mn mx n &&
    v * edgeDen mn mx n ≤ edgeNum mn mx n n

/-- The bin index numpy assigns to a kept value `v`:
`floor((v - first_edge) * n / (last_edge - first_edge))`, with the index `n`
(attained exactly at `v = last_edge`) clamped to `n - 1` so that the last bin
is closed on both ends. -/
def binIdx (mn mx : Int) (n : Nat) (v : Int) : Nat :=
  min (Int.toNat (Int.fdiv ((v * edgeDen mn mx n - edgeNum mn mx n 0) * n)
        (edgeNum mn mx n n - edgeNum mn mx n 0))) (n - 1)

/-- Truncation toward zero of the rational `a / b` (for `b > 0`): the
semantics of numpy's `astype(int)` on the float bin edges. -/
def tdiv (a b : Int) : Int :=
  if 0 ≤ a then a.fdiv b else -((-a).fdiv b)

/-- Source line 110: the `i`-th entry of `bin_edges.astype(int)`. -/
def intEdge (mn mx : Int) (n i : Nat) : Int :=
  tdiv (edgeNum mn mx n i) (edgeDen mn mx n)

/-- The histogram value returned by `numpy.histogram`: per-bin counts and the
integer-truncated bin edges (one more edge than bins). -/
structure Hist where
  counts : List Nat
  binEdges : List Int
deriving Repr, DecidableEq

/-- `numpy.histogram(values, range=(mn, mx), bins=nb)` followed by
`bin_edges.astype(int)`, with exact arithmetic.  numpy validates the bin
count first, then the range order. -/
def numpyHistogram (values : List Int) (mn mx nb : Int) :
    Except AbundError Hist :=
  if nb < 1 then .error .invalidRange
  else if mx < mn then .error .invalidRange
  else
    let n := nb.toNat
    .ok { counts := (List.range n).map (fun i =>
            values.countP (fun v => keepVal mn mx n v && binIdx mn mx n v == i)),
          binEdges := (List.range (n + 1)).map (fun i => intEdge mn mx n i) }

/-- Source lines 102-110: clamp the requested bin count, then call
`numpy.histogram`. -/
def buildHistogram (values : List Int) (mn mx b : Int) :
    Except AbundError Hist :=
  numpyHistogram values mn mx (clampBins mn mx b)

/-- Source lines 118-123: the rows written to the `--output` CSV file, as
lists of cells.  Python writes the header `['count', 'n_count']` and then,
for `nc, c in zip(counts, bin_edges[1:])`, the row `[c, nc]` — i.e. first the
bin's upper edge, then the bin's count. -/
def histCsv (h : Hist) : List (List String) :=
  ["count", "n_count"] ::
    (h.counts.zip (h.binEdges.drop 1)).map (fun p => [toString p.2, toString p.1])

/-! ## Helper lemmas -/

/-- `startsWithL` decides the prefix relation. -/
theorem startsWithL_iff (sub s : List Char) :
    startsWithL sub s = true ↔ sub <+: s := by
  induction sub generalizing s with
  | nil =>
    exact ⟨fun _ => by simp, fun _ => rfl⟩
  | cons a as ih =>
    cases s with
    | nil =>
      rw [show startsWithL (a :: as) [] = false from rfl]
      simp
    | cons b bs =>
      rw [show startsWithL (a :: as) (b :: bs) = (a == b && startsWithL as bs)
            from rfl,
        Bool.and_eq_true, beq_iff_eq, ih, List.cons_prefix_cons]

/-- `containsSub` decides Python's substring containment: `containsSub sub s`
holds iff `sub` occurs contiguously inside `s`. -/
theorem containsSub_iff (sub s : List Char) :
    containsSub sub s = true ↔ sub <:+: s := by
  induction s with
  | nil => simp [containsSub, startsWithL_iff, List.prefix_nil, List.infix_nil]
  | cons b bs ih =>
    simp [containsSub, startsWithL_iff, ih, List.infix_cons_iff]

/-- The fold inside `loadLoop`, for a non-empty source list, adds up all the
source lengths and ends with the last source's filtered signatures. -/
theorem loadLoop_foldl (md5f namef : Option (List Char)) :
    ∀ (sources : List (List Sig)) (hne : sources ≠ []) (init : Nat × List Sig),
    sources.foldl
        (fun acc src => (acc.1 + src.length, selectSigs md5f namef src)) init =
      (init.1 + (sources.map List.length).sum,
        selectSigs md5f namef (sources.getLast hne)) := by
  intro sources
  induction sources with
  | nil => intro hne; exact absurd rfl hne
  | cons a t ih =>
    intro hne init
    cases t with
    | nil => simp [List.getLast]
    | cons c t2 =>
      rw [List.foldl_cons, ih (List.cons_ne_nil c t2), List.getLast_cons_cons]
      simp [Nat.add_assoc]

/-- A sample signature used in concrete instances below. -/
def sigA : Sig := ⟨['a', '1'], ['x'], [(7, 3), (8, 1)]⟩

/-- A second sample signature sharing hash 7 with `sigA`. -/
def sigB : Sig := ⟨['b', '2'], ['y'], [(7, 2)]⟩

/-! ## Claims -/

/-- Claim C1 (refuted by the code, supporting a code bug): with two
positional sources holding `sigA` (hash 7 ↦ 3) and `sigB` (hash 7 ↦ 2) and no
filters active, the aggregate map the code computes binds hash 7 to 2 — the
last source alone — whereas aggregating all selected signatures, as the
claimed invariant requires, binds hash 7 to 3 + 2 = 5. -/
theorem c1_aggregate_ignores_earlier_sources :
    abundhistAgg none none [[sigA], [sigB]] = [(7, 2)] ∧
    aggregate [sigA, sigB] = [(7, 5), (8, 1)] := ⟨rfl, rfl⟩

/-- Claim C2: for any run with at least one positional source, the aggregate
abundance map is built from the filtered signatures of the last source only,
while `total_loaded` receives the signature counts of all sources. -/
theorem c2_last_source_only (md5f namef : Option (List Char))
    (sources : List (List Sig)) (hne : sources ≠ []) :
    abundhistAgg md5f namef sources =
      aggregate (selectSigs md5f namef (sources.getLast hne)) ∧
    (loadLoop md5f namef sources).1 = (sources.map List.length).sum := by
  unfold abundhistAgg loadLoop
  rw [loadLoop_foldl md5f namef sources hne (0, [])]
  simp

/-- Claim C2 witness: the theorem applied to the concrete two-source run of
`c1_aggregate_ignores_earlier_sources`. -/
theorem c2_last_source_only_witness :
    ([[sigA], [sigB]] : List (List Sig)) ≠ [] ∧
    (abundhistAgg none none [[sigA], [sigB]] =
        aggregate (selectSigs none none
          (([[sigA], [sigB]] : List (List Sig)).getLast (by decide))) ∧
      (loadLoop none none [[sigA], [sigB]]).1 =
        (([[sigA], [sigB]] : List (List Sig)).map List.length).sum) :=
  ⟨by decide, c2_last_source_only none none [[sigA], [sigB]] (by decide)⟩

/-- Claim C3 counterexample: with an empty aggregate value list and an
explicit `--max` override, range resolution still fails with the empty-data
error (the maximum of the values is evaluated before the override), contrary
to the claim that it would succeed. -/
theorem c3_counterexample :
    resolveRange [] none (some 5) = .error .emptyData := rfl

/-- Claim C3 (amended): range resolution fails with the empty-data error
exactly when the aggregate value list is empty, regardless of the `--min` and
`--max` overrides. -/
theorem c3_empty_data_iff (values : List Nat) (omin omax : Option Int) :
    resolveRange values omin omax = .error .emptyData ↔ values = [] := by
  cases values with
  | nil => simp [resolveRange]
  | cons a t =>
    simp [resolveRange, List.max?_cons]

/-- Claim C9: a signature is selected iff it occurs in the input list and
every active predicate's substring occurs (contiguously) in the corresponding
field — the predicates conjoin — and with no active predicates the selection
is the whole input list. -/
theorem c9_selection_conjunction (md5f namef : Option (List Char))
    (sigs : List Sig) :
    (∀ s, s ∈ selectSigs md5f namef sigs ↔
      s ∈ sigs ∧ (∀ m ∈ md5f, m <:+: s.md5) ∧
        (∀ nm ∈ namef, nm <:+: s.name)) ∧
    selectSigs none none sigs = sigs := by
  constructor
  · intro s
    cases md5f <;> cases namef <;>
      simp [selectSigs, List.mem_filter, containsSub_iff] <;> try tauto
  · rfl

/-- For a valid range and a positive requested bin count, the clamped bin
count is the minimum of the request and the integer range width. -/
theorem clampBins_toNat (mn mx b : Int) (hr : mn ≤ mx) (hb : 1 ≤ b) :
    (clampBins mn mx b).toNat = min b.toNat (mx - mn + 1).toNat := by
  unfold clampBins
  split_ifs with h <;> omega

/-- The clamped bin count stays positive on valid input. -/
theorem clampBins_pos (mn mx b : Int) (hr : mn ≤ mx) (hb : 1 ≤ b) :
    1 ≤ clampBins mn mx b := by
  unfold clampBins
  split_ifs with h <;> omega

/-- On a valid range and positive requested bin count, `buildHistogram`
succeeds and returns the per-bin counts and truncated edges for the clamped
bin count. -/
theorem buildHistogram_ok (values : List Int) (mn mx b : Int)
    (hr : mn ≤ mx) (hb : 1 ≤ b) :
    buildHistogram values mn mx b =
      .ok { counts := (List.range (clampBins mn mx b).toNat).map (fun i =>
              values.countP (fun v =>
                keepVal mn mx (clampBins mn mx b).toNat v &&
                  binIdx mn mx (clampBins mn mx b).toNat v == i)),
            binEdges := (List.range ((clampBins mn mx b).toNat + 1)).map
              (fun i => intEdge mn mx (clampBins mn mx b).toNat i) } := by
  have h1 : ¬ clampBins mn mx b < 1 := by
    have := clampBins_pos mn mx b hr hb
    omega
  have h2 : ¬ mx < mn := by omega
  unfold buildHistogram numpyHistogram
  rw [if_neg h1, if_neg h2]

/-- Claim C5: for any requested bin count `b ≥ 1` and range of width
`w = mx - mn + 1 ≥ 1`, the histogram builder uses exactly `min b w` bins. -/
theorem c5_effective_bins (values : List Int) (mn mx b : Int)
    (hr : mn ≤ mx) (hb : 1 ≤ b) :
    ∃ h, buildHistogram values mn mx b = .ok h ∧
      h.counts.length = min b.toNat (mx - mn + 1).toNat := by
  refine ⟨_, buildHistogram_ok values mn mx b hr hb, ?_⟩
  simp [clampBins_toNat mn mx b hr hb]

/-- Claim C5 witness: requesting 100 bins over the range `[1, 3]` uses
`min 100 3 = 3` bins (the spec's own example scenario). -/
theorem c5_effective_bins_witness :
    (1 : Int) ≤ 3 ∧ (1 : Int) ≤ 100 ∧
    ∃ h, buildHistogram [1, 2] 1 3 100 = .ok h ∧
      h.counts.length = min (100 : Int).toNat ((3 : Int) - 1 + 1).toNat :=
  ⟨by decide, by decide, c5_effective_bins [1, 2] 1 3 100 (by decide) (by decide)⟩

/-- Claim C8: histogram construction fails with the invalid-range error
exactly when the requested bin count is non-positive or the range is
inverted; on all other inputs it proceeds and produces a histogram. -/
theorem c8_invalid_range_iff (values : List Int) (mn mx b : Int) :
    buildHistogram values mn mx b = .error .invalidRange ↔
      (b ≤ 0 ∨ mx < mn) := by
  by_cases hok : 1 ≤ b ∧ mn ≤ mx
  · rw [buildHistogram_ok values mn mx b hok.2 hok.1]
    simp
    omega
  · have herr : clampBins mn mx b < 1 := by
      unfold clampBins
      split_ifs with h <;> omega
    unfold buildHistogram numpyHistogram
    rw [if_pos herr]
    simp
    omega

/-- Summing a pointwise sum of two functions over a list splits. -/
theorem sum_map_add {α : Type} (l : List α) (f g : α → Nat) :
    (l.map (fun i => f i + g i)).sum = (l.map f).sum + (l.map g).sum := by
  induction l with
  | nil => rfl
  | cons a t ih =>
    simp only [List.map_cons, List.sum_cons, ih]
    omega

/-- Summing an indicator of an index at least `n` over `range n` gives 0. -/
theorem sum_indicator_of_ge (c : Nat) :
    ∀ n j : Nat, n ≤ j →
      ((List.range n).map (fun i => if j = i then c else 0)).sum = 0 := by
  intro n
  induction n with
  | zero => intro j hj; rfl
  | succ m ih =>
    intro j hj
    rw [List.range_succ, List.map_append, List.sum_append, ih j (by omega)]
    have : j ≠ m := by omega
    simp [this]

/-- Summing an indicator of an index below `n` over `range n` gives its
value. -/
theorem sum_indicator_of_lt (c : Nat) :
    ∀ n j : Nat, j < n →
      ((List.range n).map (fun i => if j = i then c else 0)).sum = c := by
  intro n
  induction n with
  | zero => intro j hj; omega
  | succ m ih =>
    intro j hj
    rw [List.range_succ, List.map_append, List.sum_append]
    by_cases h : j = m
    · rw [h, sum_indicator_of_ge c m m le_rfl]
      simp
    · rw [ih j (by omega)]
      simp [h]

/-- Partitioning a count by the (bounded) value of a bin-index function: the
per-bin counts over `range n` add up to the count of the kept values. -/
theorem countP_partition (values : List Int) (p : Int → Bool) (f : Int → Nat)
    (n : Nat) (hf : ∀ v, p v = true → f v < n) :
    ((List.range n).map
        (fun i => values.countP (fun v => p v && f v == i))).sum =
      values.countP p := by
  induction values with
  | nil => simp
  | cons v t ih =>
    simp only [List.countP_cons]
    rw [sum_map_add, ih]
    congr 1
    by_cases hp : p v = true
    · have hfv := hf v hp
      simp only [hp, Bool.true_and, if_true]
      have hfun : (fun i => if (f v == i) = true then (1 : Nat) else 0) =
          (fun i => if f v = i then (1 : Nat) else 0) := by
        funext i
        by_cases h : f v = i <;> simp [h]
      rw [hfun, sum_indicator_of_lt 1 n (f v) hfv]
    · simp only [hp, Bool.false_and]
      simp

/-- The values numpy keeps are exactly the integers of `[mn, mx]` (also for
the degenerate range `mn = mx`, which numpy expands by half a unit on both
sides). -/
theorem keepVal_iff (mn mx : Int) (n : Nat) (hn : 0 < n) (v : Int) :
    keepVal mn mx n v = true ↔ (mn ≤ v ∧ v ≤ mx) := by
  have hn' : (0 : Int) < n := by exact_mod_cast hn
  unfold keepVal edgeNum edgeDen
  by_cases h : mn = mx
  · subst h
    rw [if_pos rfl, if_pos rfl, if_pos rfl]
    simp only [Bool.and_eq_true, decide_eq_true_eq]
    push_cast
    constructor
    · rintro ⟨h1, h2⟩
      constructor
      · by_contra hlt
        push_neg at hlt
        have : v * (2 * (n : Int)) ≤ (mn - 1) * (2 * n) :=
          mul_le_mul_of_nonneg_right (by omega) (by positivity)
        nlinarith
      · by_contra hlt
        push_neg at hlt
        have : (mn + 1) * (2 * (n : Int)) ≤ v * (2 * n) :=
          mul_le_mul_of_nonneg_right (by omega) (by positivity)
        nlinarith
    · rintro ⟨h1, h2⟩
      have hv : v = mn := le_antisymm h2 h1
      subst hv
      constructor <;> nlinarith
  · rw [if_neg h, if_neg h, if_neg h]
    simp only [Bool.and_eq_true, decide_eq_true_eq]
    push_cast
    constructor
    · rintro ⟨h1, h2⟩
      constructor
      · nlinarith
      · nlinarith
    · rintro ⟨h1, h2⟩
      constructor
      · nlinarith
      · nlinarith

/-- A bin index is always below the bin count. -/
theorem binIdx_lt (mn mx : Int) (n : Nat) (hn : 0 < n) (v : Int) :
    binIdx mn mx n v < n := by
  unfold binIdx
  omega

/-- Claim C4: for a valid range and positive bin request, the bin counts add
up to the number of aggregate values inside `[mn, mx]`, and each bin counts
only in-range values (values outside the range land in no bin). -/
theorem c4_coverage (values : List Int) (mn mx b : Int)
    (_hv : values ≠ []) (hr : mn ≤ mx) (hb : 1 ≤ b) :
    ∃ h, buildHistogram values mn mx b = .ok h ∧
      h.counts.sum =
        values.countP (fun v => decide (mn ≤ v) && decide (v ≤ mx)) ∧
      ∀ i (hi : i < h.counts.length),
        h.counts[i] = values.countP (fun v =>
          (decide (mn ≤ v) && decide (v ≤ mx)) &&
            binIdx mn mx (clampBins mn mx b).toNat v == i) := by
  have hcl := clampBins_pos mn mx b hr hb
  set n : Nat := (clampBins mn mx b).toNat with hn
  have hn0 : 0 < n := by omega
  refine ⟨_, buildHistogram_ok values mn mx b hr hb, ?_, ?_⟩
  · rw [countP_partition values (keepVal mn mx n) (binIdx mn mx n) n
      (fun v _ => binIdx_lt mn mx n hn0 v)]
    exact List.countP_congr (fun v _ => by
      simp [keepVal_iff mn mx n hn0 v])
  · intro i hi
    simp only [List.getElem_map, List.getElem_range]
    exact List.countP_congr (fun v _ => by
      simp [keepVal_iff mn mx n hn0 v])

/-- Claim C4 witness: the spec's example scenario — values `{5, 5, 1}` over
`[1, 5]` with 5 bins: three values in range, and bins count `1, 0, 0, 0, 2`. -/
theorem c4_coverage_witness :
    ([5, 5, 1] : List Int) ≠ [] ∧ (1 : Int) ≤ 5 ∧ (1 : Int) ≤ 5 ∧
    ∃ h, buildHistogram [5, 5, 1] 1 5 5 = .ok h ∧
      h.counts.sum =
        ([5, 5, 1] : List Int).countP
          (fun v => decide ((1 : Int) ≤ v) && decide (v ≤ 5)) ∧
      ∀ i (hi : i < h.counts.length),
        h.counts[i] = ([5, 5, 1] : List Int).countP (fun v =>
          (decide ((1 : Int) ≤ v) && decide (v ≤ 5)) &&
            binIdx 1 5 (clampBins 1 5 5).toNat v == i) :=
  ⟨by decide, by decide, by decide,
    c4_coverage [5, 5, 1] 1 5 5 (by decide) (by decide) (by decide)⟩

/-- Claim C6: an in-range value `v` is assigned exactly the bin whose exact
half-open edge interval contains it (comparisons cross-multiplied by the
positive common edge denominator), except that the last bin also includes its
upper edge, so `v = mx` always lands in the last bin.  `n` is the effective
bin count used by the builder. -/
theorem c6_bin_membership (mn mx b v : Int) (n : Nat)
    (hn : n = (clampBins mn mx b).toNat)
    (hr : mn ≤ mx) (hb : 1 ≤ b) (hv1 : mn ≤ v) (hv2 : v ≤ mx) :
    (∀ i, i < n →
      (binIdx mn mx n v = i ↔
        (edgeNum mn mx n i ≤ v * edgeDen mn mx n ∧
          (if i + 1 = n then v * edgeDen mn mx n ≤ edgeNum mn mx n n
           else v * edgeDen mn mx n < edgeNum mn mx n (i + 1))))) ∧
    (v = mx → binIdx mn mx n v = n - 1) := by
  have hcl := clampBins_pos mn mx b hr hb
  have hn0 : 0 < n := by omega
  by_cases hmm : mn = mx
  · -- degenerate range: numpy bins [mn - 1/2, mn + 1/2]; the clamp forces
    -- a single bin, and v = mn = mx is its only in-range value
    subst hmm
    have hveq : v = mn := le_antisymm hv2 hv1
    subst hveq
    have hn1 : n = 1 := by
      unfold clampBins at hn
      split_ifs at hn <;> omega
    subst hn1
    have hidx : binIdx v v 1 v = 0 := by
      unfold binIdx
      omega
    refine ⟨?_, fun _ => hidx⟩
    intro i hi
    have hi0 : i = 0 := by omega
    subst hi0
    rw [hidx, if_pos rfl]
    unfold edgeNum edgeDen
    rw [if_pos rfl, if_pos rfl, if_pos rfl]
    push_cast
    constructor
    · intro _
      constructor <;> nlinarith
    · intro _
      trivial
  · -- proper range mn < mx
    have hd : (0 : Int) < mx - mn := by omega
    have hnz : (0 : Int) < (n : Int) := by exact_mod_cast hn0
    have hEd : edgeDen mn mx n = (n : Int) := by
      unfold edgeDen
      rw [if_neg hmm]
    have hEN : ∀ i : Nat, edgeNum mn mx n i = mn * n + i * (mx - mn) := by
      intro i
      unfold edgeNum
      rw [if_neg hmm]
    have key : Int.fdiv ((v * edgeDen mn mx n - edgeNum mn mx n 0) * n)
        (edgeNum mn mx n n - edgeNum mn mx n 0) =
        ((v - mn) * n) / (mx - mn) := by
      rw [hEd, hEN 0, hEN n]
      push_cast
      rw [show (v * n - (mn * n + 0 * (mx - mn))) * (n : Int) =
            (n : Int) * ((v - mn) * n) by ring,
        show (mn * n + (n : Int) * (mx - mn)) - (mn * n + 0 * (mx - mn)) =
            (n : Int) * (mx - mn) by ring,
        Int.fdiv_eq_ediv _ (by positivity),
        Int.mul_ediv_mul_of_pos _ _ hnz]
    set q : Int := ((v - mn) * n) / (mx - mn) with hq
    have hq0 : 0 ≤ q :=
      Int.ediv_nonneg (mul_nonneg (by omega) (by positivity)) (by omega)
    have hbin : binIdx mn mx n v = min q.toNat (n - 1) := by
      unfold binIdx
      rw [key]
    have hle : ∀ i : Nat, ((i : Int) ≤ q ↔
        edgeNum mn mx n i ≤ v * edgeDen mn mx n) := by
      intro i
      rw [hq, Int.le_ediv_iff_mul_le hd, hEN i, hEd]
      have hsm := sub_mul v mn (n : Int)
      constructor <;> intro hh <;> nlinarith [hsm]
    have hlt : ∀ i : Nat, (q < (i : Int) ↔
        v * edgeDen mn mx n < edgeNum mn mx n i) := by
      intro i
      rw [hq, Int.ediv_lt_iff_lt_mul hd, hEN i, hEd]
      have hsm := sub_mul v mn (n : Int)
      constructor <;> intro hh <;> nlinarith [hsm]
    have hub : v * edgeDen mn mx n ≤ edgeNum mn mx n n := by
      rw [hEN n, hEd]
      nlinarith [sub_mul mx v (n : Int)]
    have hqn : q ≤ (n : Int) := by
      have hxd : (v - mn) * (n : Int) ≤ (n : Int) * (mx - mn) := by
        nlinarith [sub_mul mx v (n : Int)]
      calc q ≤ ((n : Int) * (mx - mn)) / (mx - mn) := Int.ediv_le_ediv hd hxd
        _ = (n : Int) := by
            rw [mul_comm, Int.mul_ediv_cancel_left _ (by omega)]
    constructor
    · intro i hi
      rw [hbin]
      by_cases hin : i + 1 = n
      · rw [if_pos hin]
        constructor
        · intro hmin
          refine ⟨(hle i).mp ?_, hub⟩
          omega
        · rintro ⟨hlo, _⟩
          have := (hle i).mpr hlo
          omega
      · rw [if_neg hin]
        rw [← hle i]
        have h2 := hlt (i + 1)
        push_cast at h2
        rw [← h2]
        omega
    · intro hveq
      subst hveq
      have hqn2 : q = (n : Int) := by
        rw [hq, Int.mul_ediv_cancel_left _ (by omega)]
      rw [hbin]
      omega

/-- Claim C6 witness: over `[1, 5]` with 5 bins, the value 5 equals the range
maximum and is counted in the last bin, and every bin index matches the
edge-interval characterization. -/
theorem c6_bin_membership_witness :
    (5 : Nat) = (clampBins 1 5 5).toNat ∧ (1 : Int) ≤ 5 ∧ (1 : Int) ≤ 5 ∧
    (1 : Int) ≤ 5 ∧ (5 : Int) ≤ 5 ∧
    ((∀ i, i < 5 →
      (binIdx 1 5 5 5 = i ↔
        (edgeNum 1 5 5 i ≤ 5 * edgeDen 1 5 5 ∧
          (if i + 1 = 5 then (5 : Int) * edgeDen 1 5 5 ≤ edgeNum 1 5 5 5
           else (5 : Int) * edgeDen 1 5 5 < edgeNum 1 5 5 (i + 1))))) ∧
    ((5 : Int) = 5 → binIdx 1 5 5 5 = 5 - 1)) :=
  ⟨by decide, by decide, by decide, by decide, by decide,
    c6_bin_membership 1 5 5 5 5 (by decide) (by decide) (by decide)
      (by decide) (by decide)⟩

/-- With a nonnegative lower bound and a proper range, truncation toward zero
agrees with floor division and edge `i` is `mn + (i * (mx - mn)) / n`. -/
theorem intEdge_formula (mn mx : Int) (n : Nat) (hn : 0 < n) (h0 : 0 ≤ mn)
    (hlt : mn < mx) (i : Nat) :
    intEdge mn mx n i = mn + ((i : Int) * (mx - mn)) / n := by
  have hne : mn ≠ mx := by omega
  have hnz : (0 : Int) < (n : Int) := by exact_mod_cast hn
  unfold intEdge tdiv edgeNum edgeDen
  rw [if_neg hne, if_neg hne]
  have hnum : (0 : Int) ≤ mn * n + i * (mx - mn) :=
    add_nonneg (mul_nonneg h0 (by positivity))
      (mul_nonneg (by positivity) (by omega))
  rw [if_pos hnum, Int.fdiv_eq_ediv _ (by omega),
    show mn * (n : Int) + i * (mx - mn) = i * (mx - mn) + mn * n from by ring,
    Int.add_mul_ediv_right _ _ (by omega)]
  exact add_comm _ _

/-- For `1 ≤ j ≤ n`, the floor of `j * (n - 1) / n` is `j - 1`. -/
theorem ediv_mul_pred (n j : Nat) (hj1 : 1 ≤ j) (hj2 : j ≤ n) :
    ((j : Int) * ((n : Int) - 1)) / (n : Int) = (j : Int) - 1 := by
  have hnz : (0 : Int) < (n : Int) := by
    have : 0 < n := by omega
    exact_mod_cast this
  rw [show (j : Int) * ((n : Int) - 1) =
        ((n : Int) - j) + ((j : Int) - 1) * n from by ring,
    Int.add_mul_ediv_right _ _ (by omega),
    Int.ediv_eq_zero_of_lt (by omega) (by omega)]
  omega

/-- Consecutive reported (truncated) edges are strictly increasing for a
proper range with nonnegative lower bound, with the bin count the clamped
one. -/
theorem intEdge_strict (mn mx b : Int) (n : Nat)
    (hn : n = (clampBins mn mx b).toNat) (h0 : 0 ≤ mn) (hlt : mn < mx)
    (hb : 1 ≤ b) :
    ∀ j : Nat, 1 ≤ j → j + 1 ≤ n →
      intEdge mn mx n j < intEdge mn mx n (j + 1) := by
  intro j hj1 hj2
  have hn0 : 0 < n := by omega
  have hnz : (0 : Int) < (n : Int) := by exact_mod_cast hn0
  rw [intEdge_formula mn mx n hn0 h0 hlt j,
    intEdge_formula mn mx n hn0 h0 hlt (j + 1)]
  have hd : (0 : Int) < mx - mn := by omega
  have hcases : (n : Int) ≤ mx - mn ∨ (n : Int) = mx - mn + 1 := by
    unfold clampBins at hn
    split_ifs at hn <;> omega
  rcases hcases with hc | hc
  · have h1 : ((j : Int) * (mx - mn) + n) / n ≤
        ((j : Int) * (mx - mn) + (mx - mn)) / n :=
      Int.ediv_le_ediv hnz (by omega)
    have h2 : ((j : Int) * (mx - mn) + n) / n =
        (j : Int) * (mx - mn) / n + 1 := by
      have h3 := Int.add_mul_ediv_right ((j : Int) * (mx - mn)) 1
        (show (n : Int) ≠ 0 by omega)
      simpa using h3
    have h4 : (((j : Nat) + 1 : Nat) : Int) * (mx - mn) =
        (j : Int) * (mx - mn) + (mx - mn) := by
      push_cast
      ring
    rw [h4]
    omega
  · have hdn : mx - mn = (n : Int) - 1 := by omega
    rw [hdn, ediv_mul_pred n j hj1 (by omega),
      ediv_mul_pred n (j + 1) (by omega) hj2]
    push_cast
    omega

/-- Claim C7 counterexample: over the valid range `[-3, 0]` with 10 requested
bins (clamped to 4) and a non-empty value list, the truncated edges are
`[-3, -2, -1, 0, 0]` — truncation toward zero collapses the last two — so the
reported edges `[-2, -1, 0, 0]` are not strictly increasing. -/
theorem c7_counterexample :
    buildHistogram [(1 : Int)] (-3) 0 10 =
      .ok { counts := [0, 0, 0, 0], binEdges := [-3, -2, -1, 0, 0] } ∧
    ¬ List.Pairwise (· < ·) (([-3, -2, -1, 0, 0] : List Int).drop 1) :=
  ⟨rfl, by decide⟩

/-- Claim C7 (amended): for a non-empty value list, a valid range with
`0 ≤ min_range`, and a positive bin request, the reported integer bin edges
(all edges but the first) are strictly increasing, and the number of counts
equals the number of reported edges equals the effective bin count.  (The
original claim fails for negative ranges, where `astype(int)`'s truncation
toward zero can repeat an edge.) -/
theorem c7_output_shape (values : List Int) (mn mx b : Int)
    (_hv : values ≠ []) (h0 : 0 ≤ mn) (hr : mn ≤ mx) (hb : 1 ≤ b) :
    ∃ h, buildHistogram values mn mx b = .ok h ∧
      List.Pairwise (· < ·) (h.binEdges.drop 1) ∧
      h.counts.length = (h.binEdges.drop 1).length ∧
      h.counts.length = min b.toNat (mx - mn + 1).toNat := by
  have hcl := clampBins_pos mn mx b hr hb
  set n : Nat := (clampBins mn mx b).toNat with hn
  have hn0 : 0 < n := by omega
  refine ⟨_, buildHistogram_ok values mn mx b hr hb, ?_, ?_, ?_⟩
  · show List.Pairwise (· < ·)
      (((List.range (n + 1)).map (fun i => intEdge mn mx n i)).drop 1)
    have hdrop : ((List.range (n + 1)).map (fun i => intEdge mn mx n i)).drop 1 =
        (List.range n).map (fun i => intEdge mn mx n (i + 1)) := by
      rw [List.range_succ_eq_map]
      simp [List.map_map, Function.comp_def]
    rw [hdrop, ← List.chain'_iff_pairwise, List.chain'_map]
    obtain ⟨m, hm⟩ : ∃ m, n = m + 1 := ⟨n - 1, by omega⟩
    rw [hm, List.chain'_range_succ]
    intro k hk
    by_cases hmm : mn = mx
    · exfalso
      have hm1 : n = 1 := by
        rw [hmm] at hn
        rw [hn]
        unfold clampBins
        split_ifs <;> omega
      omega
    · rw [← hm]
      exact intEdge_strict mn mx b n hn h0 (by omega) hb (k + 1)
        (by omega) (by omega)
  · simp
  · simp [hn, clampBins_toNat mn mx b hr hb]

/-- Claim C7 witness: the spec's example range `[1, 5]` with 5 bins on values
`{5, 5, 1}`. -/
theorem c7_output_shape_witness :
    ([5, 5, 1] : List Int) ≠ [] ∧ (0 : Int) ≤ 1 ∧ (1 : Int) ≤ 5 ∧
    (1 : Int) ≤ 5 ∧
    ∃ h, buildHistogram [5, 5, 1] 1 5 5 = .ok h ∧
      List.Pairwise (· < ·) (h.binEdges.drop 1) ∧
      h.counts.length = (h.binEdges.drop 1).length ∧
      h.counts.length = min (5 : Int).toNat ((5 : Int) - 1 + 1).toNat :=
  ⟨by decide, by decide, by decide, by decide,
    c7_output_shape [5, 5, 1] 1 5 5 (by decide) (by decide) (by decide)
      (by decide)⟩

/-- Claim C10 (intended reporter behavior, modelled from source lines
118-123): whenever the histogram is computed, the CSV content is the header
`count,n_count` followed by exactly one row per bin, in bin order, with first
column the bin's upper edge and second column the bin's count.  (The script
as committed never reaches a successful write: `csv` and `FileOutput` are
not imported, so the `--output` branch raises `NameError` at run time.) -/
theorem c10_csv_shape (values : List Int) (mn mx b : Int)
    (hr : mn ≤ mx) (hb : 1 ≤ b) :
    ∃ h, buildHistogram values mn mx b = .ok h ∧
      histCsv h = ["count", "n_count"] ::
        (List.range h.counts.length).map (fun i =>
          [toString (h.binEdges.getD (i + 1) 0), toString (h.counts.getD i 0)]) := by
  refine ⟨_, buildHistogram_ok values mn mx b hr hb, ?_⟩
  set n : Nat := (clampBins mn mx b).toNat with hn
  unfold histCsv
  simp only [List.length_map, List.length_range]
  congr 1
  rw [show List.drop 1 ((List.range (n + 1)).map (fun j => intEdge mn mx n j)) =
        (List.range n).map (fun j => intEdge mn mx n (j + 1)) from by
      rw [List.range_succ_eq_map]
      simp [List.map_map, Function.comp_def],
    List.zip_map', List.map_map]
  apply List.map_congr_left
  intro i hi
  have hi' : i < n := List.mem_range.mp hi
  simp only [Function.comp_def]
  rw [List.getD_eq_getElem _ _ (by
      simp only [List.length_map, List.length_range]
      omega),
    List.getD_eq_getElem _ _ (by
      simp only [List.length_map, List.length_range]
      omega)]
  simp

/-- Claim C10 witness: the spec's example — the CSV for values `{5, 5, 1}`
over `[1, 5]` with 5 bins is the header plus the five rows
`(edge, count) = (1,1), (2,0), (3,0), (4,0), (5,2)`. -/
theorem c10_csv_shape_witness :
    (buildHistogram [5, 5, 1] 1 5 5).map histCsv =
      .ok [["count", "n_count"],
        ["1", "1"], ["2", "0"], ["3", "0"], ["4", "0"], ["5", "2"]] ∧
    (1 : Int) ≤ 5 ∧
    ∃ h, buildHistogram [5, 5, 1] 1 5 5 = .ok h ∧
      histCsv h = ["count", "n_count"] ::
        (List.range h.counts.length).map (fun i =>
          [toString (h.binEdges.getD (i + 1) 0), toString (h.counts.getD i 0)]) :=
  ⟨rfl, by decide, c10_csv_shape [5, 5, 1] 1 5 5 (by decide) (by decide)⟩

end KmerAbundHist
